import Mathlib

/-!
Verification of the trufnetwork/postgres-mcp composition engine.

This file gives a shallow embedding, in Lean 4, of the time-series
composition pipeline implemented by the repository:

* the composed-record SQL pipeline (`src/postgres_mcp/truf/composed_stream.py`
  and the `COMPOSED_STREAM_RECORD_QUERY` / `COMPOSED_STREAM_INDEX_QUERY`
  strings in `src/postgres_mcp/truf/query.py`),
* the primitive-stream tool (`src/postgres_mcp/truf/primitive_stream.py`),
* the period-change calculator (`src/postgres_mcp/truf/general.py`).

SQL `NUMERIC` values are modelled as exact rationals (`ℚ`), timestamps as
unbounded integers (`Int`), stream references as `Nat`, and Python
exceptions as `Except String`.  Window functions `SUM ... OVER (ORDER BY k)`
and `LAG` are modelled as running row-by-row folds over lists sorted by the
corresponding key, which agrees with the SQL semantics whenever the sort
keys are pairwise distinct within a partition.
-/

namespace Truf

/-- The `max_int8` constant used throughout the SQL queries
(`9223372036854775000 as max_int8`). -/
def maxInt8 : Int := 9223372036854775000

/-- A row of `main.primitive_events`: bitemporal raw observation. -/
structure PrimitiveEvent where
  stream : Nat
  event_time : Int
  created_at : Int
  value : ℚ
deriving Repr, DecidableEq

/-- A resolved `primitive_weights` row: a primitive stream contributing with
`raw_weight` on the active segment `[segStart, segEnd]`
(`group_sequence_start` / `group_sequence_end` in the SQL). -/
structure PrimitiveWeight where
  stream : Nat
  raw_weight : ℚ
  segStart : Int
  segEnd : Int
deriving Repr, DecidableEq

/-- A row of the `unified_events` CTE: a per-stream delta, either a value
change (`event_type_priority = 1`, `weight_delta = 0`) or a weight change
(`event_type_priority = 2`, `delta_value = 0`). -/
structure UnifiedEvent where
  event_time : Int
  delta_value : ℚ
  weight_delta : ℚ
  prio : Nat
deriving Repr, DecidableEq

/-- A row of the `primitive_state_timeline` CTE: each unified event paired
with the running value/weight state accumulated over the events that come
before it in `(event_time, event_type_priority)` order. -/
structure TimelineRow where
  event_time : Int
  delta_value : ℚ
  weight_delta : ℚ
  value_before : ℚ
  weight_before : ℚ
deriving Repr, DecidableEq

/-- The `primitive_state_timeline` CTE for one stream partition: walking the
(sorted) unified events, each row records the state before the event
(`LAG(value_after_event)` / `LAG(weight_after_event)` with default `0`),
and the state advances by the event's deltas
(`SUM(...) OVER (ORDER BY event_time, event_type_priority)`). -/
def stateTimeline (v w : ℚ) : List UnifiedEvent → List TimelineRow
  | [] => []
  | e :: rest =>
      ⟨e.event_time, e.delta_value, e.weight_delta, v, w⟩ ::
        stateTimeline (v + e.delta_value) (w + e.weight_delta) rest

/-- The per-row weighted-sum contribution from the `final_deltas` CTE:
`(delta_value * weight_before_event) + (value_before_event * weight_delta)
 + (delta_value * weight_delta)`. -/
def deltaWS (r : TimelineRow) : ℚ :=
  r.delta_value * r.weight_before + r.value_before * r.weight_delta +
    r.delta_value * r.weight_delta

/-- The per-row weight contribution from the `final_deltas` CTE. -/
def deltaSW (r : TimelineRow) : ℚ := r.weight_delta

/-- Helper: total value delta of a list of unified events. -/
def totalDV (evs : List UnifiedEvent) : ℚ := (evs.map (·.delta_value)).sum

/-- Helper: total weight delta of a list of unified events. -/
def totalDW (evs : List UnifiedEvent) : ℚ := (evs.map (·.weight_delta)).sum

lemma stateTimeline_length (v w : ℚ) (evs : List UnifiedEvent) :
    (stateTimeline v w evs).length = evs.length := by
  induction evs generalizing v w with
  | nil => rfl
  | cons e rest ih => simp [stateTimeline, ih]

/-- Telescoping: the summed weighted-sum contributions over a stream's
timeline starting in state `(v, w)` equal the product-difference between the
final and the starting state. -/
lemma sum_deltaWS (v w : ℚ) (evs : List UnifiedEvent) :
    ((stateTimeline v w evs).map deltaWS).sum =
      (v + totalDV evs) * (w + totalDW evs) - v * w := by
  induction evs generalizing v w with
  | nil => simp [stateTimeline, totalDV, totalDW]
  | cons e rest ih =>
      simp only [stateTimeline, List.map_cons, List.sum_cons, ih, totalDV,
        totalDW, List.map_cons, List.sum_cons, deltaWS]
      ring

/-- **C1.** For every event in a unified per-stream timeline, the
incremental contribution to the global weighted-sum numerator computed by
`final_deltas` equals
`delta_value * weight_before + value_before * weight_delta + delta_value * weight_delta`,
which equals
`(value_before + delta_value) * (weight_before + delta_weight) - value_before * weight_before`;
consequently the contributions telescope, so the whole timeline is accounted
exactly once: their sum is exactly `(Σ delta_value) * (Σ weight_delta)`,
independent of how simultaneous value/weight changes are interleaved. -/
theorem final_deltas_product_decomposition (evs : List UnifiedEvent)
    (i : Nat) (h : i < (stateTimeline 0 0 evs).length) :
    (deltaWS ((stateTimeline 0 0 evs).get ⟨i, h⟩) =
      (((stateTimeline 0 0 evs).get ⟨i, h⟩).value_before +
          ((stateTimeline 0 0 evs).get ⟨i, h⟩).delta_value) *
        (((stateTimeline 0 0 evs).get ⟨i, h⟩).weight_before +
          ((stateTimeline 0 0 evs).get ⟨i, h⟩).weight_delta) -
        ((stateTimeline 0 0 evs).get ⟨i, h⟩).value_before *
          ((stateTimeline 0 0 evs).get ⟨i, h⟩).weight_before) ∧
    ((stateTimeline 0 0 evs).map deltaWS).sum = totalDV evs * totalDW evs := by
  constructor
  · unfold deltaWS; ring
  · have := sum_deltaWS 0 0 evs
    simpa using this

/-- Witness for C1: a concrete timeline with a simultaneous value change
(`+10`) and weight change (`+1`) at instant `0`; the second row's
contribution is `10` and the total is `10 = 10 * 1`. -/
theorem final_deltas_product_decomposition_witness :
    (1 < (stateTimeline 0 0 [⟨0, 10, 0, 1⟩, ⟨0, 0, 1, 2⟩]).length) ∧
    ((stateTimeline 0 0 [⟨0, 10, 0, 1⟩, ⟨0, 0, 1, 2⟩]).map deltaWS).sum =
      totalDV [⟨0, 10, 0, 1⟩, ⟨0, 0, 1, 2⟩] *
        totalDW [⟨0, 10, 0, 1⟩, ⟨0, 0, 1, 2⟩] := by
  refine ⟨by decide, ?_⟩
  exact (final_deltas_product_decomposition
    [⟨0, 10, 0, 1⟩, ⟨0, 0, 1, 2⟩] 1 (by decide)).2

/-! ## Grouping, cumulative sums and aggregation (`final_deltas`,
`cumulative_values`, `aggregated`) -/

/-- A row of the `final_deltas` CTE: per-`event_time` sums of the
weighted-sum and weight contributions over all streams. -/
structure FinalDelta where
  event_time : Int
  delta_ws : ℚ
  delta_sw : ℚ
deriving Repr, DecidableEq

/-- Insert an integer into a sorted list (ascending). -/
def insertSorted (x : Int) : List Int → List Int
  | [] => [x]
  | y :: ys => if x ≤ y then x :: y :: ys else y :: insertSorted x ys

/-- Insertion sort on integers, modelling `ORDER BY event_time ASC`. -/
def sortInts : List Int → List Int
  | [] => []
  | x :: xs => insertSorted x (sortInts xs)

/-- The `final_deltas` CTE: group the state timeline by `event_time`, sum
the weighted-sum and weight contributions, and keep only rows where at
least one of the two sums is nonzero (the `HAVING` clause). -/
def finalDeltas (rows : List TimelineRow) : List FinalDelta :=
  ((sortInts ((rows.map (·.event_time)).dedup)).map (fun t =>
      FinalDelta.mk t
        (((rows.filter (fun r => r.event_time = t)).map deltaWS).sum)
        (((rows.filter (fun r => r.event_time = t)).map deltaSW).sum))).filter
    (fun fd => fd.delta_ws ≠ 0 ∨ fd.delta_sw ≠ 0)

/-- A row of the `cumulative_values` CTE. -/
structure CumRow where
  event_time : Int
  cum_ws : ℚ
  cum_sw : ℚ
deriving Repr, DecidableEq

/-- The `cumulative_values` CTE: running prefix sums of `delta_ws` and
`delta_sw` over the (already `event_time`-ordered) final deltas
(`SUM(...) OVER (ORDER BY event_time ASC)`). -/
def cumulativeValues (ws sw : ℚ) : List FinalDelta → List CumRow
  | [] => []
  | fd :: rest =>
      ⟨fd.event_time, ws + fd.delta_ws, sw + fd.delta_sw⟩ ::
        cumulativeValues (ws + fd.delta_ws) (sw + fd.delta_sw) rest

/-- A row of the `aggregated` CTE (also the shape of the final result). -/
structure AggRow where
  event_time : Int
  value : ℚ
deriving Repr, DecidableEq

/-- The `aggregated` CTE: `CASE WHEN cum_sw = 0 THEN 0 ELSE cum_ws / cum_sw END`. -/
def aggregated (cvs : List CumRow) : List AggRow :=
  cvs.map (fun cv =>
    ⟨cv.event_time, if cv.cum_sw = 0 then 0 else cv.cum_ws / cv.cum_sw⟩)

lemma cumulativeValues_length (ws sw : ℚ) (fds : List FinalDelta) :
    (cumulativeValues ws sw fds).length = fds.length := by
  induction fds generalizing ws sw with
  | nil => rfl
  | cons fd rest ih => simp [cumulativeValues, ih]

lemma aggregated_length (cvs : List CumRow) :
    (aggregated cvs).length = cvs.length := by
  simp [aggregated]

/-- The running scan in `cumulative_values` computes, at index `i`, exactly
the sum of deltas over the first `i + 1` rows. -/
lemma cumulativeValues_get (ws sw : ℚ) (fds : List FinalDelta) (i : Nat)
    (h : i < (cumulativeValues ws sw fds).length) :
    (cumulativeValues ws sw fds).get ⟨i, h⟩ =
      ⟨(fds.get ⟨i, by rwa [cumulativeValues_length] at h⟩).event_time,
        ws + (((fds.take (i + 1)).map (·.delta_ws)).sum),
        sw + (((fds.take (i + 1)).map (·.delta_sw)).sum)⟩ := by
  induction fds generalizing ws sw i with
  | nil => simp [cumulativeValues_length, cumulativeValues] at h
  | cons fd rest ih =>
      cases i with
      | zero => simp [cumulativeValues]
      | succ n =>
          have h2 : n < (cumulativeValues (ws + fd.delta_ws) (sw + fd.delta_sw) rest).length := by
            simpa [cumulativeValues] using Nat.lt_of_succ_lt_succ (by
              simpa [cumulativeValues] using h)
          have := ih (ws + fd.delta_ws) (sw + fd.delta_sw) n h2
          simp only [cumulativeValues, List.get_cons_succ, this, List.take_succ_cons,
            List.map_cons, List.sum_cons]
          simp [add_assoc]

/-- **C2.** Every change point emitted by the composed-record aggregation
carries the value `cum_ws / cum_sw` when the cumulative weight `cum_sw`
(the sum of all weight deltas up to and including that point) is nonzero,
and the value `0` when `cum_sw = 0`; in particular a point at which every
weight segment has ended (`cum_sw = 0`) yields the value `0` rather than a
division failure. -/
theorem aggregated_value_eq (fds : List FinalDelta) (i : Nat)
    (h : i < (aggregated (cumulativeValues 0 0 fds)).length) :
    ((aggregated (cumulativeValues 0 0 fds)).get ⟨i, h⟩).value =
      (if (((fds.take (i + 1)).map (·.delta_sw)).sum) = 0 then 0
       else (((fds.take (i + 1)).map (·.delta_ws)).sum) /
            (((fds.take (i + 1)).map (·.delta_sw)).sum)) ∧
    ((aggregated (cumulativeValues 0 0 fds)).get ⟨i, h⟩).event_time =
      (fds.get ⟨i, by rwa [aggregated_length, cumulativeValues_length] at h⟩).event_time := by
  have hlen : i < (cumulativeValues 0 0 fds).length := by
    rwa [aggregated_length] at h
  have hget := cumulativeValues_get 0 0 fds i hlen
  have hagg : (aggregated (cumulativeValues 0 0 fds)).get ⟨i, h⟩ =
      (fun cv : CumRow =>
        AggRow.mk cv.event_time (if cv.cum_sw = 0 then 0 else cv.cum_ws / cv.cum_sw))
        ((cumulativeValues 0 0 fds).get ⟨i, hlen⟩) := by
    simp [aggregated]
  rw [hagg, hget]
  simp

/-- Witness for C2: with deltas `(t=1, ws=10, sw=1)` then `(t=2, ws=-10, sw=-1)`,
the second aggregated point has cumulative weight `0` and value `0`. -/
theorem aggregated_value_eq_witness :
    (1 < (aggregated (cumulativeValues 0 0
        [⟨1, 10, 1⟩, ⟨2, -10, -1⟩])).length) ∧
    ((aggregated (cumulativeValues 0 0
        [⟨1, 10, 1⟩, ⟨2, -10, -1⟩])).get ⟨1, by decide⟩).value = 0 := by
  refine ⟨by decide, ?_⟩
  have := (aggregated_value_eq [⟨1, 10, 1⟩, ⟨2, -10, -1⟩] 1 (by decide)).1
  rw [this]
  norm_num

/-! ## Bitemporal resolution (`primitive_events_in_interval`) -/

/-- `ROW_NUMBER() OVER (... ORDER BY created_at DESC)` filtered to `rn = 1`:
pick an event with maximal `created_at` (the earliest in list order when
several tie, which is one of the rows SQL may return). -/
def latestCreated : List PrimitiveEvent → Option PrimitiveEvent
  | [] => none
  | e :: rest =>
      match latestCreated rest with
      | none => some e
      | some m => if m.created_at > e.created_at then some m else some e

/-- The join condition of `primitive_events_in_interval`: the event's
stream is covered by some `primitive_weights` row whose segment contains
the event time. -/
def inSegment (pws : List PrimitiveWeight) (e : PrimitiveEvent) : Bool :=
  pws.any (fun pw =>
    decide (pw.stream = e.stream ∧ pw.segStart ≤ e.event_time ∧
      e.event_time ≤ pw.segEnd))

/-- The rows feeding `primitive_events_in_interval` before bitemporal
resolution: events in a covering weight segment, with
`effective_from < event_time ≤ effective_to` and
`created_at ≤ effective_frozen_at`. -/
def intervalCandidates (events : List PrimitiveEvent)
    (pws : List PrimitiveWeight) (efrom eto efrozen : Int) :
    List PrimitiveEvent :=
  events.filter (fun e =>
    inSegment pws e && decide (efrom < e.event_time) &&
      decide (e.event_time ≤ eto) && decide (e.created_at ≤ efrozen))

/-- A resolved `(stream_ref, event_time, value)` row. -/
structure PointRow where
  stream : Nat
  event_time : Int
  value : ℚ
deriving Repr, DecidableEq

/-- The `(stream_ref, event_time)` partition key. -/
def PointRow.key (r : PointRow) : Nat × Int := (r.stream, r.event_time)

/-- Bool test for membership in a `(stream_ref, event_time)` partition. -/
def sameKey (s : Nat) (t : Int) (e : PrimitiveEvent) : Bool :=
  decide (e.stream = s ∧ e.event_time = t)

/-- The `primitive_events_in_interval` CTE: partition the candidate rows by
`(stream_ref, event_time)` and keep, per partition, the row with the
largest `created_at` (`ROW_NUMBER ... ORDER BY created_at DESC`, `rn = 1`). -/
def primitiveEventsInInterval (events : List PrimitiveEvent)
    (pws : List PrimitiveWeight) (efrom eto efrozen : Int) : List PointRow :=
  (((intervalCandidates events pws efrom eto efrozen).map
      (fun e => (e.stream, e.event_time))).dedup).filterMap
    (fun k =>
      (latestCreated ((intervalCandidates events pws efrom eto efrozen).filter
          (sameKey k.1 k.2))).map
        (fun e => ⟨e.stream, e.event_time, e.value⟩))

lemma latestCreated_mem : ∀ (l : List PrimitiveEvent) (e : PrimitiveEvent),
    latestCreated l = some e → e ∈ l := by
  intro l
  induction l with
  | nil => intro e h; simp [latestCreated] at h
  | cons x rest ih =>
      intro e h
      simp only [latestCreated] at h
      cases hc : latestCreated rest with
      | none =>
          rw [hc] at h
          simp only [Option.some.injEq] at h
          exact h ▸ List.mem_cons_self x rest
      | some m =>
          rw [hc] at h
          dsimp only at h
          by_cases hgt : m.created_at > x.created_at
          · rw [if_pos hgt] at h
            simp only [Option.some.injEq] at h
            exact List.mem_cons_of_mem x (ih e (h ▸ hc))
          · rw [if_neg hgt] at h
            simp only [Option.some.injEq] at h
            exact h ▸ List.mem_cons_self x rest

lemma latestCreated_max : ∀ (l : List PrimitiveEvent) (e : PrimitiveEvent),
    latestCreated l = some e → ∀ x ∈ l, x.created_at ≤ e.created_at := by
  intro l
  induction l with
  | nil => intro e h; simp [latestCreated] at h
  | cons y rest ih =>
      intro e h x hx
      simp only [latestCreated] at h
      cases hc : latestCreated rest with
      | none =>
          rw [hc] at h
          simp only [Option.some.injEq] at h
          have hrest : rest = [] := by
            cases rest with
            | nil => rfl
            | cons z zs =>
                exfalso
                simp only [latestCreated] at hc
                cases hz : latestCreated zs with
                | none => rw [hz] at hc; cases hc
                | some m =>
                    rw [hz] at hc
                    by_cases hgt : m.created_at > z.created_at
                    · simp [hgt] at hc
                    · simp [hgt] at hc
          subst hrest
          have hx2 : x = y := by simpa using hx
          subst hx2
          exact le_of_eq (congrArg PrimitiveEvent.created_at h.symm).symm
      | some m =>
          rw [hc] at h
          dsimp only at h
          rcases List.mem_cons.mp hx with rfl | hx2
          · by_cases hgt : m.created_at > x.created_at
            · rw [if_pos hgt] at h
              simp only [Option.some.injEq] at h
              rw [← h]
              exact le_of_lt hgt
            · rw [if_neg hgt] at h
              simp only [Option.some.injEq] at h
              exact le_of_eq (congrArg PrimitiveEvent.created_at h)
          · by_cases hgt : m.created_at > y.created_at
            · rw [if_pos hgt] at h
              simp only [Option.some.injEq] at h
              exact ih e (h ▸ hc) x hx2
            · rw [if_neg hgt] at h
              simp only [Option.some.injEq] at h
              have hxm := ih m hc x hx2
              have hmy : m.created_at ≤ y.created_at := not_lt.mp hgt
              rw [← h]
              exact hxm.trans hmy

/-- `inSegment` only looks at the stream and the event time. -/
lemma inSegment_congr (pws : List PrimitiveWeight) (e1 e2 : PrimitiveEvent)
    (hs : e1.stream = e2.stream) (ht : e1.event_time = e2.event_time) :
    inSegment pws e1 = inSegment pws e2 := by
  simp only [inSegment, hs, ht]

/-- Keys of the output are a sublist of the deduplicated candidate keys. -/
lemma primitiveEventsInInterval_keys_sublist (events : List PrimitiveEvent)
    (pws : List PrimitiveWeight) (efrom eto efrozen : Int) :
    ((primitiveEventsInInterval events pws efrom eto efrozen).map
        PointRow.key).Sublist
      (((intervalCandidates events pws efrom eto efrozen).map
          (fun e => (e.stream, e.event_time))).dedup) := by
  unfold primitiveEventsInInterval
  generalize ((intervalCandidates events pws efrom eto efrozen).map
      (fun e => (e.stream, e.event_time))).dedup = ks
  induction ks with
  | nil => simp
  | cons k ks ih =>
      simp only [List.filterMap_cons]
      cases hl : latestCreated ((intervalCandidates events pws efrom eto
          efrozen).filter (sameKey k.1 k.2)) with
      | none => exact ih.cons k
      | some e =>
          have hmem := latestCreated_mem _ _ hl
          have hkey : (⟨e.stream, e.event_time, e.value⟩ : PointRow).key = k := by
            have := List.of_mem_filter hmem
            simp only [sameKey, decide_eq_true_eq] at this
            cases k with
            | mk ks kt =>
                simp [PointRow.key, this.1, this.2]
          simp only [Option.map_some', List.map_cons, hkey]
          exact ih.cons₂ k

/-- **C3.** In the interval pipeline, at most one row per
`(stream, event_time)` survives bitemporal resolution, and each surviving
row carries the value of an event with the largest `created_at` at most the
`frozen_at` cutoff among all stored events for that `(stream, event_time)`;
hence a query frozen before a correction was recorded still sees the
pre-correction value. -/
theorem primitive_events_bitemporal_resolution (events : List PrimitiveEvent)
    (pws : List PrimitiveWeight) (efrom eto efrozen : Int) :
    (((primitiveEventsInInterval events pws efrom eto efrozen).map
        PointRow.key).Nodup) ∧
    (∀ r ∈ primitiveEventsInInterval events pws efrom eto efrozen,
      ∃ e ∈ events, e.stream = r.stream ∧ e.event_time = r.event_time ∧
        e.value = r.value ∧ e.created_at ≤ efrozen ∧
        ∀ e2 ∈ events, e2.stream = r.stream → e2.event_time = r.event_time →
          e2.created_at ≤ efrozen → e2.created_at ≤ e.created_at) := by
  constructor
  · exact (primitiveEventsInInterval_keys_sublist events pws efrom eto
      efrozen).nodup (List.nodup_dedup _)
  · intro r hr
    unfold primitiveEventsInInterval at hr
    rcases List.mem_filterMap.mp hr with ⟨k, hk, hf⟩
    cases hl : latestCreated ((intervalCandidates events pws efrom eto
        efrozen).filter (sameKey k.1 k.2)) with
    | none => rw [hl] at hf; cases hf
    | some e =>
        rw [hl] at hf
        simp only [Option.map_some', Option.some.injEq] at hf
        have hmemf := latestCreated_mem _ _ hl
        have hcand := List.mem_of_mem_filter hmemf
        -- unpack the candidate conditions on e
        have hec : e ∈ events ∧ (inSegment pws e = true ∧
            efrom < e.event_time ∧ e.event_time ≤ eto ∧
            e.created_at ≤ efrozen) := by
          have h1 := List.mem_filter.mp hcand
          refine ⟨h1.1, ?_⟩
          have h2 := h1.2
          simp only [Bool.and_eq_true, decide_eq_true_eq] at h2
          exact ⟨h2.1.1.1, h2.1.1.2, h2.1.2, h2.2⟩
        refine ⟨e, hec.1, ?_, ?_, ?_, hec.2.2.2.2, ?_⟩
        · rw [← hf]
        · rw [← hf]
        · rw [← hf]
        · intro e2 he2 hs ht hc
          -- e2 satisfies all the candidate conditions because they only
          -- depend on the key fields, which agree with those of e
          have hsk : e.stream = e2.stream := by
            rw [← hf] at hs; exact hs.symm
          have htk : e.event_time = e2.event_time := by
            rw [← hf] at ht; exact ht.symm
          have he2cand : e2 ∈ intervalCandidates events pws efrom eto efrozen := by
            refine List.mem_filter.mpr ⟨he2, ?_⟩
            simp only [Bool.and_eq_true, decide_eq_true_eq]
            refine ⟨⟨⟨?_, ?_⟩, ?_⟩, hc⟩
            · rw [← inSegment_congr pws e e2 hsk htk]
              exact hec.2.1
            · rw [← htk]; exact hec.2.2.1
            · rw [← htk]; exact hec.2.2.2.1
          have he2filter : e2 ∈ (intervalCandidates events pws efrom eto
              efrozen).filter (sameKey k.1 k.2) := by
            refine List.mem_filter.mpr ⟨he2cand, ?_⟩
            have hek := List.of_mem_filter hmemf
            simp only [sameKey, decide_eq_true_eq] at hek ⊢
            exact ⟨hsk ▸ hek.1, htk ▸ hek.2⟩
          exact latestCreated_max _ _ hl e2 he2filter

/-- Witness for C3: a correction (`created_at = 20`, value `999`) at the
same `event_time = 5` as the original (`created_at = 10`, value `100`),
queried with `frozen_at = 15`: the resolver returns the pre-correction
value `100`, one row for the key. -/
theorem primitive_events_bitemporal_resolution_witness :
    (primitiveEventsInInterval
        [⟨1, 5, 10, 100⟩, ⟨1, 5, 20, 999⟩] [⟨1, 1, 0, 100⟩] 0 10 15 =
      [⟨1, 5, 100⟩]) ∧
    (∃ e ∈ [(⟨1, 5, 10, 100⟩ : PrimitiveEvent), ⟨1, 5, 20, 999⟩],
      e.stream = 1 ∧ e.event_time = 5 ∧ e.value = 100 ∧ e.created_at ≤ 15 ∧
      ∀ e2 ∈ [(⟨1, 5, 10, 100⟩ : PrimitiveEvent), ⟨1, 5, 20, 999⟩],
        e2.stream = 1 → e2.event_time = 5 → e2.created_at ≤ 15 →
          e2.created_at ≤ e.created_at) := by
  have hout : primitiveEventsInInterval
      [⟨1, 5, 10, 100⟩, ⟨1, 5, 20, 999⟩] [⟨1, 1, 0, 100⟩] 0 10 15 =
      [⟨1, 5, 100⟩] := by
    simp [primitiveEventsInInterval, intervalCandidates, inSegment,
      latestCreated, sameKey]
  refine ⟨hout, ?_⟩
  have := (primitive_events_bitemporal_resolution
      [⟨1, 5, 10, 100⟩, ⟨1, 5, 20, 999⟩] [⟨1, 1, 0, 100⟩] 0 10 15).2
      ⟨1, 5, 100⟩ (by rw [hout]; exact List.mem_singleton_self _)
  simp only at this
  exact this

/-! ## The composed-record pipeline
(`initial_primitive_states`, `all_primitive_points`,
`primitive_event_changes`, `first_value_times`, `effective_weight_changes`,
`unified_events`, result modes) -/

/-- `ROW_NUMBER() OVER (... ORDER BY event_time DESC, created_at DESC)`
filtered to `rn = 1`: pick the event maximal in the lexicographic
`(event_time, created_at)` order. -/
def latestByTimeCreated : List PrimitiveEvent → Option PrimitiveEvent
  | [] => none
  | e :: rest =>
      match latestByTimeCreated rest with
      | none => some e
      | some m =>
          if m.event_time > e.event_time ∨
              (m.event_time = e.event_time ∧ m.created_at > e.created_at) then
            some m
          else some e

/-- The streams contributing through `primitive_weights`. -/
def pwStreams (pws : List PrimitiveWeight) : List Nat :=
  (pws.map (·.stream)).dedup

/-- The `initial_primitive_states` CTE: for each contributing stream, the
latest effective event (largest `(event_time, created_at)`) with
`event_time ≤ effective_from` and `created_at ≤ effective_frozen_at`. -/
def initialPrimitiveStates (events : List PrimitiveEvent)
    (pws : List PrimitiveWeight) (efrom efrozen : Int) : List PointRow :=
  (pwStreams pws).filterMap (fun s =>
    (latestByTimeCreated (events.filter (fun e =>
        decide (e.stream = s) && decide (e.event_time ≤ efrom) &&
          decide (e.created_at ≤ efrozen)))).map
      (fun e => ⟨e.stream, e.event_time, e.value⟩))

/-- The `all_primitive_points` CTE. -/
def allPrimitivePoints (events : List PrimitiveEvent)
    (pws : List PrimitiveWeight) (efrom eto efrozen : Int) : List PointRow :=
  initialPrimitiveStates events pws efrom efrozen ++
    primitiveEventsInInterval events pws efrom eto efrozen

/-- A row of the `primitive_event_changes` CTE. -/
structure ChangeRow where
  stream : Nat
  event_time : Int
  value : ℚ
  delta_value : ℚ
deriving Repr, DecidableEq

/-- Insert a point into a list sorted by `event_time` (ascending). -/
def insertPoint (x : PointRow) : List PointRow → List PointRow
  | [] => [x]
  | y :: ys =>
      if x.event_time ≤ y.event_time then x :: y :: ys
      else y :: insertPoint x ys

/-- Sort points by `event_time` (`ORDER BY event_time` inside the `LAG`). -/
def sortPoints : List PointRow → List PointRow
  | [] => []
  | x :: xs => insertPoint x (sortPoints xs)

/-- `value - LAG(value)` with `COALESCE(..., value)` for the first row. -/
def changeRowsAux (prev : Option ℚ) : List PointRow → List ChangeRow
  | [] => []
  | p :: rest =>
      ⟨p.stream, p.event_time, p.value,
        match prev with
        | none => p.value
        | some v => p.value - v⟩ :: changeRowsAux (some p.value) rest

/-- The `primitive_event_changes` CTE: per-stream value deltas in
`event_time` order, dropping zero deltas. -/
def primitiveEventChanges (pts : List PointRow) : List ChangeRow :=
  (((pts.map (·.stream)).dedup).map (fun s =>
      changeRowsAux none (sortPoints (pts.filter (fun p =>
        decide (p.stream = s)))))).flatten.filter
    (fun c => decide (c.delta_value ≠ 0))

/-- The `first_value_times` CTE: the earliest point time of a stream, when
the stream has any point. -/
def firstValueTime (pts : List PointRow) (s : Nat) : Option Int :=
  ((pts.filter (fun p => decide (p.stream = s))).map (·.event_time)).min?

/-- A row of the `effective_weight_changes` CTE. -/
structure WRow where
  stream : Nat
  event_time : Int
  weight_delta : ℚ
deriving Repr, DecidableEq

/-- The `effective_weight_changes` CTE: a `+weight` delta at
`GREATEST(segment start, first value time)` and a `-weight` delta at
`segment end + 1` (the latter only when the segment ends before
`max_int8 - 1`), skipping empty segments and zero weights. -/
def effectiveWeightChanges (pws : List PrimitiveWeight)
    (pts : List PointRow) : List WRow :=
  (pws.filterMap (fun pw =>
    (firstValueTime pts pw.stream).bind (fun fvt =>
      if max pw.segStart fvt ≤ pw.segEnd ∧ pw.raw_weight ≠ 0 then
        some ⟨pw.stream, max pw.segStart fvt, pw.raw_weight⟩
      else none))) ++
  (pws.filterMap (fun pw =>
    (firstValueTime pts pw.stream).bind (fun fvt =>
      if max pw.segStart fvt ≤ pw.segEnd ∧ pw.raw_weight ≠ 0 ∧
          pw.segEnd < maxInt8 - 1 then
        some ⟨pw.stream, pw.segEnd + 1, -pw.raw_weight⟩
      else none)))

/-- `ORDER BY event_time ASC, event_type_priority ASC` as a Bool test. -/
def ueLEb (x y : UnifiedEvent) : Bool :=
  decide (x.event_time < y.event_time ∨
    (x.event_time = y.event_time ∧ x.prio ≤ y.prio))

/-- Insertion into a `(event_time, priority)`-sorted unified-event list. -/
def insertUE (x : UnifiedEvent) : List UnifiedEvent → List UnifiedEvent
  | [] => [x]
  | y :: ys => if ueLEb x y then x :: y :: ys else y :: insertUE x ys

/-- Sort unified events by `(event_time, event_type_priority)`. -/
def sortUE : List UnifiedEvent → List UnifiedEvent
  | [] => []
  | x :: xs => insertUE x (sortUE xs)

/-- The `unified_events` CTE restricted to one stream, in window order:
value deltas with priority `1`, weight deltas with priority `2`. -/
def unifiedForStream (chs : List ChangeRow) (wcs : List WRow) (s : Nat) :
    List UnifiedEvent :=
  sortUE
    (((chs.filter (fun c => decide (c.stream = s))).map (fun c =>
        (⟨c.event_time, c.delta_value, 0, 1⟩ : UnifiedEvent))) ++
      ((wcs.filter (fun w => decide (w.stream = s))).map (fun w =>
        (⟨w.event_time, 0, w.weight_delta, 2⟩ : UnifiedEvent))))

/-- All `primitive_state_timeline` rows, one partition per stream. -/
def allTimelineRows (chs : List ChangeRow) (wcs : List WRow) :
    List TimelineRow :=
  ((((chs.map (·.stream)) ++ (wcs.map (·.stream))).dedup).map (fun s =>
    stateTimeline 0 0 (unifiedForStream chs wcs s))).flatten

/-- The aggregated change-point series of the composed-record query, from
the resolved `primitive_weights` and the raw event store. -/
def composedRecordPipeline (events : List PrimitiveEvent)
    (pws : List PrimitiveWeight) (efrom eto efrozen : Int) : List AggRow :=
  let pts := allPrimitivePoints events pws efrom eto efrozen
  let chs := primitiveEventChanges pts
  let wcs := effectiveWeightChanges pws pts
  aggregated (cumulativeValues 0 0 (finalDeltas (allTimelineRows chs wcs)))

/-- The result modes of the composed-record query
(`latest_record_case` / `range_case`): with both bounds `NULL` only the
most recent aggregated point is returned, otherwise the aggregated points
with `effective_from ≤ event_time ≤ effective_to`. -/
def composedRecordResult (events : List PrimitiveEvent)
    (pws : List PrimitiveWeight) (fromT toT frozenT : Option Int) :
    List AggRow :=
  let efrom := fromT.getD 0
  let eto := toT.getD maxInt8
  let efrozen := frozenT.getD maxInt8
  let agg := composedRecordPipeline events pws efrom eto efrozen
  if fromT = none ∧ toT = none then
    agg.getLast?.toList
  else
    agg.filter (fun a => decide (efrom ≤ a.event_time) &&
      decide (a.event_time ≤ eto))

/-- **C4 (counterexample).** A store whose only aggregated change point
(`t = 0`, value `10`) lies strictly before the queried range
`[5, 10]`: the composed-record range query returns the empty list — no
anchor record is synthesized at `effective_from = 5`, although a real
change point exists strictly before it and no record exists at `5`. -/
theorem composed_record_range_no_anchor_counterexample :
    composedRecordPipeline [⟨2, 0, 0, 10⟩] [⟨2, 1, 0, maxInt8 - 1⟩]
        5 10 maxInt8 = [⟨0, 10⟩] ∧
    composedRecordResult [⟨2, 0, 0, 10⟩] [⟨2, 1, 0, maxInt8 - 1⟩]
        (some 5) (some 10) none = [] := by
  constructor
  · simp [composedRecordPipeline, allPrimitivePoints, initialPrimitiveStates,
      primitiveEventsInInterval, intervalCandidates, inSegment, sameKey,
      pwStreams, latestByTimeCreated, latestCreated, primitiveEventChanges,
      sortPoints, insertPoint, changeRowsAux, effectiveWeightChanges,
      firstValueTime, allTimelineRows, unifiedForStream, sortUE, insertUE,
      ueLEb, stateTimeline, finalDeltas, sortInts, insertSorted, deltaWS,
      deltaSW, cumulativeValues, aggregated, maxInt8]
  · simp [composedRecordResult, composedRecordPipeline, allPrimitivePoints,
      initialPrimitiveStates, primitiveEventsInInterval, intervalCandidates,
      inSegment, sameKey, pwStreams, latestByTimeCreated, latestCreated,
      primitiveEventChanges, sortPoints, insertPoint, changeRowsAux,
      effectiveWeightChanges, firstValueTime, allTimelineRows,
      unifiedForStream, sortUE, insertUE, ueLEb, stateTimeline, finalDeltas,
      sortInts, insertSorted, deltaWS, deltaSW, cumulativeValues, aggregated,
      maxInt8]

/-- **C4 (amended).** In range mode (at least one bound given), the
composed-record result is exactly the aggregated change points whose time
lies inside `[effective_from, effective_to]`: nothing outside the range is
emitted and no anchor record is synthesized at `effective_from` — a record
at `effective_from` appears only when an aggregated change point falls
exactly there. -/
theorem composed_record_range_is_plain_filter (events : List PrimitiveEvent)
    (pws : List PrimitiveWeight) (fromT toT frozenT : Option Int)
    (hmode : ¬(fromT = none ∧ toT = none)) (r : AggRow) :
    r ∈ composedRecordResult events pws fromT toT frozenT ↔
      (r ∈ composedRecordPipeline events pws (fromT.getD 0) (toT.getD maxInt8)
          (frozenT.getD maxInt8) ∧
        fromT.getD 0 ≤ r.event_time ∧ r.event_time ≤ toT.getD maxInt8) := by
  unfold composedRecordResult
  rw [if_neg hmode]
  simp [List.mem_filter, and_assoc]

/-- Witness for the amended C4: querying the one-change-point store over
`[0, 10]` returns exactly the change point at `t = 0`. -/
theorem composed_record_range_is_plain_filter_witness :
    (¬((some (0 : Int)) = none ∧ (some (10 : Int)) = none)) ∧
    ((⟨0, 10⟩ : AggRow) ∈ composedRecordResult [⟨2, 0, 0, 10⟩]
        [⟨2, 1, 0, maxInt8 - 1⟩] (some 0) (some 10) none ↔
      ((⟨0, 10⟩ : AggRow) ∈ composedRecordPipeline [⟨2, 0, 0, 10⟩]
          [⟨2, 1, 0, maxInt8 - 1⟩] ((some (0 : Int)).getD 0)
          ((some (10 : Int)).getD maxInt8) ((none : Option Int).getD maxInt8) ∧
        (some (0 : Int)).getD 0 ≤ (0 : Int) ∧
          (0 : Int) ≤ (some (10 : Int)).getD maxInt8)) := by
  refine ⟨by simp, ?_⟩
  exact composed_record_range_is_plain_filter [⟨2, 0, 0, 10⟩]
    [⟨2, 1, 0, maxInt8 - 1⟩] (some 0) (some 10) none (by simp) ⟨0, 10⟩

/-! ## Taxonomy resolution (`taxonomy_true_segments`, `hierarchy`,
`primitive_weights`) and the end-to-end composed-record query -/

/-- A `main.streams` catalog row: reference and whether it is primitive. -/
structure StreamRow where
  ref : Nat
  isPrim : Bool
deriving Repr, DecidableEq

/-- A `main.taxonomies` row. -/
structure TaxonomyRow where
  stream_ref : Nat
  child_stream_ref : Nat
  weight : ℚ
  start_time : Int
  group_sequence : Nat
  disabled_at : Option Int
deriving Repr, DecidableEq

/-- `parent_next_starts`: the next distinct non-disabled start time of the
same parent after `st` (`LEAD(start_time) OVER (PARTITION BY stream_ref
ORDER BY start_time)`). -/
def nextStart (txs : List TaxonomyRow) (p : Nat) (st : Int) : Option Int :=
  (((txs.filter (fun t => decide (t.stream_ref = p ∧ t.disabled_at = none))).map
      (·.start_time)).filter (fun x => decide (st < x))).min?

/-- The maximal `group_sequence` among non-disabled rows of a
`(parent, start_time)` group. -/
def maxGS (txs : List TaxonomyRow) (p : Nat) (st : Int) : Option Nat :=
  ((txs.filter (fun t => decide (t.stream_ref = p ∧ t.start_time = st ∧
      t.disabled_at = none))).map (·.group_sequence)).max?

/-- A `taxonomy_true_segments` row. -/
structure Segment where
  stream_ref : Nat
  child_stream_ref : Nat
  weight_for_segment : ℚ
  segment_start : Int
  segment_end : Int
deriving Repr, DecidableEq

/-- The `taxonomy_true_segments` CTE: non-disabled rows carrying the
maximal `group_sequence` of their `(parent, start_time)` group, with
`segment_end = COALESCE(next_start_time, max_int8) - 1`. -/
def taxonomyTrueSegments (txs : List TaxonomyRow) : List Segment :=
  txs.filterMap (fun tx =>
    if tx.disabled_at = none ∧
        maxGS txs tx.stream_ref tx.start_time = some tx.group_sequence then
      some ⟨tx.stream_ref, tx.child_stream_ref, tx.weight, tx.start_time,
        (nextStart txs tx.stream_ref tx.start_time).getD maxInt8 - 1⟩
    else none)

/-- The anchor used by the `hierarchy` CTE: the latest root taxonomy
`start_time ≤ effective_from`, defaulting to `0`. -/
def anchorStart (txs : List TaxonomyRow) (root : Nat) (efrom : Int) : Int :=
  ((((txs.filter (fun t => decide (t.stream_ref = root ∧ t.disabled_at = none ∧
      t.start_time ≤ efrom))).map (·.start_time)).max?).getD 0)

/-- A `hierarchy` CTE row (root fixed, level implicit). -/
structure HierRow where
  descendant : Nat
  raw_weight : ℚ
  path_start : Int
  path_end : Int
deriving Repr, DecidableEq

/-- The base case of the `hierarchy` CTE: direct children of the root. -/
def hierBase (segs : List Segment) (root : Nat) (anchor eto : Int) :
    List HierRow :=
  (segs.filter (fun s => decide (s.stream_ref = root) &&
      decide (anchor ≤ s.segment_end) &&
      decide (s.segment_start ≤ eto))).map
    (fun s => ⟨s.child_stream_ref, s.weight_for_segment, s.segment_start,
      s.segment_end⟩)

/-- One recursive step of the `hierarchy` CTE: weights multiply along the
path and segment bounds intersect. -/
def hierStep (segs : List Segment) (anchor eto : Int) (cur : List HierRow) :
    List HierRow :=
  (cur.map (fun h =>
    (segs.filter (fun s => decide (s.stream_ref = h.descendant))).filterMap
      (fun s =>
        if max h.path_start s.segment_start ≤ min h.path_end s.segment_end ∧
            anchor ≤ min h.path_end s.segment_end ∧
            max h.path_start s.segment_start ≤ eto then
          some ⟨s.child_stream_ref, h.raw_weight * s.weight_for_segment,
            max h.path_start s.segment_start, min h.path_end s.segment_end⟩
        else none))).flatten

/-- All levels of the `hierarchy` CTE, with the `h.level < 1000` depth
bound supplied as fuel. -/
def hierLevels (segs : List Segment) (anchor eto : Int) :
    Nat → List HierRow → List HierRow
  | 0, _ => []
  | fuel + 1, cur =>
      if cur = [] then []
      else cur ++ hierLevels segs anchor eto fuel (hierStep segs anchor eto cur)

/-- Whether a stream reference names a primitive stream. -/
def isPrimitiveRef (streams : List StreamRow) (r : Nat) : Bool :=
  streams.any (fun s => decide (s.ref = r) && s.isPrim)

/-- `hierarchy_primitive_paths` / `primitive_weights`: the hierarchy rows
whose descendant is primitive, as contribution segments. -/
def primitiveWeightsOf (streams : List StreamRow) (txs : List TaxonomyRow)
    (root : Nat) (efrom eto : Int) : List PrimitiveWeight :=
  let segs := taxonomyTrueSegments txs
  let anchor := anchorStart txs root efrom
  (hierLevels segs anchor eto 1000 (hierBase segs root anchor eto)).filterMap
    (fun h =>
      if isPrimitiveRef streams h.descendant then
        some ⟨h.descendant, h.raw_weight, h.path_start, h.path_end⟩
      else none)

/-- The end-to-end composed-record query (`get_record_composed`). -/
def getRecordComposed (streams : List StreamRow) (txs : List TaxonomyRow)
    (events : List PrimitiveEvent) (root : Nat)
    (fromT toT frozenT : Option Int) : List AggRow :=
  composedRecordResult events
    (primitiveWeightsOf streams txs root (fromT.getD 0) (toT.getD maxInt8))
    fromT toT frozenT

/-- The C9 store: composed stream `1` with primitive children `2` and `3`,
each with weight `1` from `t = 0`. -/
def c9Streams : List StreamRow := [⟨1, false⟩, ⟨2, true⟩, ⟨3, true⟩]

/-- The C9 taxonomy rows. -/
def c9Taxonomies : List TaxonomyRow :=
  [⟨1, 2, 1, 0, 0, none⟩, ⟨1, 3, 1, 0, 0, none⟩]

/-- The C9 events: child `2` emits `10` at `t = 0`, child `3` emits `20`. -/
def c9Events : List PrimitiveEvent := [⟨2, 0, 0, 10⟩, ⟨3, 0, 0, 20⟩]

lemma c9_primitive_weights :
    primitiveWeightsOf c9Streams c9Taxonomies 1 0 10 =
      [⟨2, 1, 0, maxInt8 - 1⟩, ⟨3, 1, 0, maxInt8 - 1⟩] := by
  decide

/-- **C9.** On the two-children store (weights `1` from `t = 0`, values
`10` and `20` at `t = 0`), the composed-record query over `[0, 10]` emits
exactly one record, at `t = 0` with value `15` (the equal-weight average). -/
theorem composed_record_two_children_average :
    getRecordComposed c9Streams c9Taxonomies c9Events 1
      (some 0) (some 10) none = [⟨0, 15⟩] := by
  rw [getRecordComposed]
  have hpw : primitiveWeightsOf c9Streams c9Taxonomies 1
      ((some (0 : Int)).getD 0) ((some (10 : Int)).getD maxInt8) =
      [⟨2, 1, 0, maxInt8 - 1⟩, ⟨3, 1, 0, maxInt8 - 1⟩] := by
    simpa using c9_primitive_weights
  rw [hpw]
  simp [composedRecordResult, composedRecordPipeline, allPrimitivePoints,
    initialPrimitiveStates, primitiveEventsInInterval, intervalCandidates,
    inSegment, sameKey, pwStreams, latestByTimeCreated, latestCreated,
    primitiveEventChanges, sortPoints, insertPoint, changeRowsAux,
    effectiveWeightChanges, firstValueTime, allTimelineRows, unifiedForStream,
    sortUE, insertUE, ueLEb, stateTimeline, finalDeltas, sortInts,
    insertSorted, deltaWS, deltaSW, cumulativeValues, aggregated, maxInt8,
    c9Events]
  norm_num

/-! ## The primitive stream tool (`primitive_stream.py`) and the
composed index query's base values -/

/-- The `interval_records` CTE of `PRIMITIVE_STREAM_RECORD_QUERY`: events
of the stream with `from < event_time ≤ to` and `created_at ≤ frozen_at`,
one row per `event_time` (largest `created_at`). -/
def intervalRecords (events : List PrimitiveEvent) (sref : Nat)
    (efrozen efrom eto : Int) : List PointRow :=
  let cands := events.filter (fun e => decide (e.stream = sref) &&
    decide (e.created_at ≤ efrozen) && decide (efrom < e.event_time) &&
    decide (e.event_time ≤ eto))
  ((cands.map (·.event_time)).dedup).filterMap (fun t =>
    (latestCreated (cands.filter (fun e => decide (e.event_time = t)))).map
      (fun e => ⟨e.stream, e.event_time, e.value⟩))

/-- The `anchor_record` CTE: the latest `(event_time, created_at)` event at
or before `from`. -/
def anchorRecord (events : List PrimitiveEvent) (sref : Nat)
    (efrom efrozen : Int) : Option PointRow :=
  (latestByTimeCreated (events.filter (fun e => decide (e.stream = sref) &&
      decide (e.event_time ≤ efrom) && decide (e.created_at ≤ efrozen)))).map
    (fun e => ⟨e.stream, e.event_time, e.value⟩)

/-- `PRIMITIVE_STREAM_RECORD_QUERY`: anchor plus interval records, ordered
by `event_time` ascending. -/
def primitiveRecordRows (events : List PrimitiveEvent) (sref : Nat)
    (efrozen efrom eto : Int) : List PointRow :=
  sortPoints ((anchorRecord events sref efrom efrozen).toList ++
    intervalRecords events sref efrozen efrom eto)

/-- `PRIMITIVE_STREAM_LAST_RECORD_QUERY`: the latest
`(event_time, created_at)` event strictly before `before`. -/
def lastRecordPrimitive (events : List PrimitiveEvent) (sref : Nat)
    (before efrozen : Int) : Option PointRow :=
  (latestByTimeCreated (events.filter (fun e => decide (e.stream = sref) &&
      decide (e.event_time < before) && decide (e.created_at ≤ efrozen)))).map
    (fun e => ⟨e.stream, e.event_time, e.value⟩)

/-- `ORDER BY event_time ASC, created_at DESC LIMIT 1`: the event minimal
in `event_time`, breaking ties by the largest `created_at`. -/
def firstByTimeLatestCreated : List PrimitiveEvent → Option PrimitiveEvent
  | [] => none
  | e :: rest =>
      match firstByTimeLatestCreated rest with
      | none => some e
      | some m =>
          if m.event_time < e.event_time ∨
              (m.event_time = e.event_time ∧ m.created_at > e.created_at) then
            some m
          else some e

/-- `_get_first_record_primitive`: the first-ever record, or the earliest
record strictly after `afterT` when given. -/
def firstRecordPrimitive (events : List PrimitiveEvent) (sref : Nat)
    (frozenT : Option Int) (afterT : Option Int) : Option PointRow :=
  let efrozen := frozenT.getD maxInt8
  (firstByTimeLatestCreated (events.filter (fun e =>
      decide (e.stream = sref) && decide (e.created_at ≤ efrozen) &&
        (match afterT with
         | none => true
         | some a => decide (a < e.event_time))))).map
    (fun e => ⟨e.stream, e.event_time, e.value⟩)

/-- `_get_record_primitive`: latest-record mode returns the most recent
record (or an empty list); range mode raises when no row is found at all. -/
def getRecordPrimitive (events : List PrimitiveEvent) (sref : Nat)
    (fromT toT frozenT : Option Int) : Except String (List PointRow) :=
  let efrom := fromT.getD 0
  let eto := toT.getD maxInt8
  let efrozen := frozenT.getD maxInt8
  if fromT = none ∧ toT = none then
    .ok (lastRecordPrimitive events sref maxInt8 efrozen).toList
  else
    let rows := primitiveRecordRows events sref efrozen efrom eto
    if rows = [] then .error "error when getting record" else .ok rows

/-- `_get_base_value`: resolve the base time (explicit, then metadata,
then fall back to the first-ever value), then look up the base value via
the exact/before/after chain of the Python code.  The record lookup raises
on an empty result, so the before/after fallbacks match the Python
control flow. -/
def getBaseValue (events : List PrimitiveEvent) (meta : Option Int)
    (sref : Nat) (baseT frozenT : Option Int) : Except String ℚ :=
  match baseT.orElse (fun _ => meta) with
  | none =>
      match firstRecordPrimitive events sref frozenT none with
      | some r => .ok r.value
      | none => .error "No base value found: no records in stream"
  | some bt =>
      match getRecordPrimitive events sref (some bt) (some bt) frozenT with
      | .error msg => .error msg
      | .ok rows =>
          match rows with
          | r :: _ => .ok r.value
          | [] =>
              match lastRecordPrimitive events sref bt (frozenT.getD maxInt8) with
              | some r => .ok r.value
              | none =>
                  match firstRecordPrimitive events sref frozenT (some bt) with
                  | some r => .ok r.value
                  | none => .error "No base value found"

/-- `PrimitiveStreamTool.get_index`: base resolution, the zero-base guard,
then latest-record or range mode with `value * 100 / base`. -/
def getIndexPrimitive (events : List PrimitiveEvent) (meta : Option Int)
    (sref : Nat) (fromT toT frozenT baseT : Option Int) :
    Except String (List AggRow) :=
  let efrozen := frozenT.getD maxInt8
  match getBaseValue events meta sref (baseT.orElse (fun _ => meta)) frozenT with
  | .error m => .error m
  | .ok bv =>
      if bv = 0 then .error "Base value is 0, cannot calculate index"
      else if fromT = none ∧ toT = none then
        match lastRecordPrimitive events sref maxInt8 efrozen with
        | some r => .ok [⟨r.event_time, r.value * 100 / bv⟩]
        | none => .ok []
      else
        match getRecordPrimitive events sref fromT toT frozenT with
        | .error m => .error m
        | .ok rows => .ok (rows.map (fun r => ⟨r.event_time, r.value * 100 / bv⟩))

/-- **C5.** Evaluating the base-value resolution at a stream whose only
event (value `7` at `t = 10`) lies strictly after the explicit base time
`5`: the claim expects the earliest-after fallback to produce `7`, but the
code raises the record-lookup error, because `_get_record_primitive`
raises on an empty result, which makes the strictly-before / strictly-after
fallbacks and the `No base value found` error unreachable. -/
theorem base_value_after_fallback_unreachable :
    getBaseValue [⟨1, 10, 0, 7⟩] none 1 (some 5) none =
      .error "error when getting record" ∧
    firstRecordPrimitive [⟨1, 10, 0, 7⟩] 1 none (some 5) =
      some ⟨1, 10, 7⟩ := by
  constructor
  · simp [getBaseValue, getRecordPrimitive, primitiveRecordRows,
      intervalRecords, anchorRecord, latestByTimeCreated, latestCreated,
      sortPoints, insertPoint, maxInt8]
  · simp [firstRecordPrimitive, firstByTimeLatestCreated, maxInt8]

/-- The `primitive_base_values` CTE of the composed index query:
`COALESCE(exact match at base time, latest before, earliest after, 1)`. -/
def primitiveBaseValue (events : List PrimitiveEvent) (sref : Nat)
    (ebase efrozen : Int) : ℚ :=
  match latestCreated (events.filter (fun e => decide (e.stream = sref) &&
      decide (e.event_time = ebase) && decide (e.created_at ≤ efrozen))) with
  | some e => e.value
  | none =>
      match latestByTimeCreated (events.filter (fun e =>
          decide (e.stream = sref) && decide (e.event_time < ebase) &&
            decide (e.created_at ≤ efrozen))) with
      | some e => e.value
      | none =>
          match firstByTimeLatestCreated (events.filter (fun e =>
              decide (e.stream = sref) && decide (ebase < e.event_time) &&
                decide (e.created_at ≤ efrozen))) with
          | some e => e.value
          | none => 1

/-- A row of the composed index query's `primitive_event_changes` CTE. -/
structure IndexChangeRow where
  stream : Nat
  event_time : Int
  value : ℚ
  delta_value : ℚ
  delta_indexed : ℚ
deriving Repr, DecidableEq

/-- The composed index query's `primitive_event_changes` CTE:
`CASE WHEN base_value = 0 THEN 0 ELSE delta_value * 100 / base_value END`. -/
def primitiveEventChangesIndexed (events : List PrimitiveEvent)
    (pts : List PointRow) (ebase efrozen : Int) : List IndexChangeRow :=
  (primitiveEventChanges pts).map (fun c =>
    let bv := primitiveBaseValue events c.stream ebase efrozen
    ⟨c.stream, c.event_time, c.value, c.delta_value,
      if bv = 0 then 0 else c.delta_value * 100 / bv⟩)

/-- **C6 (counterexample).** In the composed index pipeline, a primitive
stream whose base value resolves to `0` (an exact-match event with value
`0` at the base time) does not make the query fail: its nonzero value
delta is silently mapped to the indexed delta `0`. -/
theorem composed_index_zero_base_counterexample :
    primitiveBaseValue [⟨2, 3, 0, 0⟩, ⟨2, 7, 0, 5⟩] 2 3 maxInt8 = 0 ∧
    primitiveEventChangesIndexed [⟨2, 3, 0, 0⟩, ⟨2, 7, 0, 5⟩]
        (allPrimitivePoints [⟨2, 3, 0, 0⟩, ⟨2, 7, 0, 5⟩]
          [⟨2, 1, 0, maxInt8 - 1⟩] 0 10 maxInt8) 3 maxInt8 =
      [⟨2, 7, 5, 5, 0⟩] := by
  constructor
  · simp [primitiveBaseValue, latestCreated, maxInt8]
  · simp [primitiveEventChangesIndexed, primitiveBaseValue, latestCreated,
      allPrimitivePoints, initialPrimitiveStates, primitiveEventsInInterval,
      intervalCandidates, inSegment, sameKey, pwStreams, latestByTimeCreated,
      primitiveEventChanges, sortPoints, insertPoint, changeRowsAux,
      maxInt8]

/-- **C6 (amended).** When the resolved base value of a primitive-stream
`get_index` call is `0`, the call fails with the invalid-base-value error
(never returning a result list); the composed index pipeline, by contrast,
maps a primitive whose base value resolves to `0` to zero indexed deltas
instead of failing. -/
theorem get_index_zero_base_behavior (events : List PrimitiveEvent)
    (meta : Option Int) (sref : Nat) (fromT toT frozenT baseT : Option Int)
    (hbv : getBaseValue events meta sref (baseT.orElse (fun _ => meta))
      frozenT = .ok 0) :
    getIndexPrimitive events meta sref fromT toT frozenT baseT =
      .error "Base value is 0, cannot calculate index" ∧
    ∀ (pts : List PointRow) (ebase efrozen : Int) (r : IndexChangeRow),
      r ∈ primitiveEventChangesIndexed events pts ebase efrozen →
      primitiveBaseValue events r.stream ebase efrozen = 0 →
      r.delta_indexed = 0 := by
  constructor
  · unfold getIndexPrimitive
    rw [hbv]
    simp
  · intro pts ebase efrozen r hr hz
    unfold primitiveEventChangesIndexed at hr
    rcases List.mem_map.mp hr with ⟨c, hc, hrc⟩
    subst hrc
    simp only at hz
    simp [hz]

/-- Witness for the amended C6: a stream whose only event has value `0` at
the explicit base time `3`: the base resolves to `0`, `get_index` fails
with the invalid-base-value error, and a composed-index change row for a
zero-base stream carries indexed delta `0`. -/
theorem get_index_zero_base_behavior_witness :
    (getBaseValue [⟨1, 3, 0, 0⟩] none 1
        ((some 3).orElse (fun _ => (none : Option Int))) none = .ok 0) ∧
    getIndexPrimitive [⟨1, 3, 0, 0⟩] none 1 (some 0) (some 10) none (some 3) =
      .error "Base value is 0, cannot calculate index" ∧
    ((⟨1, 7, 5, 5, 0⟩ : IndexChangeRow) ∈ primitiveEventChangesIndexed
        [⟨1, 3, 0, 0⟩] [⟨1, 3, 0⟩, ⟨1, 7, 5⟩] 3 maxInt8 ∧
      (⟨1, 7, 5, 5, 0⟩ : IndexChangeRow).delta_indexed = 0) := by
  have hbv : getBaseValue [⟨1, 3, 0, 0⟩] none 1
      ((some 3).orElse (fun _ => (none : Option Int))) none = .ok 0 := by
    simp [getBaseValue, getRecordPrimitive, primitiveRecordRows,
      intervalRecords, anchorRecord, latestByTimeCreated, latestCreated,
      sortPoints, insertPoint, maxInt8]
  have hmem : (⟨1, 7, 5, 5, 0⟩ : IndexChangeRow) ∈ primitiveEventChangesIndexed
      [⟨1, 3, 0, 0⟩] [⟨1, 3, 0⟩, ⟨1, 7, 5⟩] 3 maxInt8 := by
    simp [primitiveEventChangesIndexed, primitiveBaseValue, latestCreated,
      primitiveEventChanges, sortPoints, insertPoint, changeRowsAux, maxInt8]
  have H := get_index_zero_base_behavior [⟨1, 3, 0, 0⟩] none 1
    (some 0) (some 10) none (some 3) hbv
  exact ⟨hbv, H.1, hmem,
    H.2 [⟨1, 3, 0⟩, ⟨1, 7, 5⟩] 3 maxInt8 ⟨1, 7, 5, 5, 0⟩ hmem
      (by simp [primitiveBaseValue, latestCreated, maxInt8])⟩

/-- **C10.** A range-mode `get_index` call on a stream whose earliest
record exists (base resolution succeeds with a nonzero value) but whose
events all lie strictly after `effective_to` fails with the
record-lookup error rather than returning an empty list, while the
latest-record mode of the record fetch on a stream with no events returns
the empty list without error. -/
theorem range_mode_error_latest_mode_empty (events : List PrimitiveEvent)
    (sref sref2 : Nat) (fromT toT frozenT : Option Int) (r : PointRow)
    (hmode : ¬(fromT = none ∧ toT = none))
    (hfr : fromT.getD 0 ≤ toT.getD maxInt8)
    (hfirst : firstRecordPrimitive events sref frozenT none = some r)
    (hr0 : r.value ≠ 0)
    (hafter : ∀ e ∈ events, e.stream = sref → toT.getD maxInt8 < e.event_time) :
    getIndexPrimitive events none sref fromT toT frozenT none =
      .error "error when getting record" ∧
    ((∀ e ∈ events, e.stream ≠ sref2) →
      getRecordPrimitive events sref2 none none frozenT = .ok []) := by
  constructor
  · have hanchor : (events.filter (fun e => decide (e.stream = sref) &&
        decide (e.event_time ≤ fromT.getD 0) &&
        decide (e.created_at ≤ frozenT.getD maxInt8))) = [] := by
      rw [List.filter_eq_nil_iff]
      intro e he
      simp only [Bool.and_eq_true, decide_eq_true_eq]
      intro h
      exact absurd (hafter e he h.1.1) (not_lt.mpr (h.1.2.trans hfr))
    have hcands : (events.filter (fun e => decide (e.stream = sref) &&
        decide (e.created_at ≤ frozenT.getD maxInt8) &&
        decide (fromT.getD 0 < e.event_time) &&
        decide (e.event_time ≤ toT.getD maxInt8))) = [] := by
      rw [List.filter_eq_nil_iff]
      intro e he
      simp only [Bool.and_eq_true, decide_eq_true_eq]
      intro h
      exact absurd h.2 (not_le.mpr (hafter e he h.1.1.1))
    have hrows : primitiveRecordRows events sref (frozenT.getD maxInt8)
        (fromT.getD 0) (toT.getD maxInt8) = [] := by
      unfold primitiveRecordRows anchorRecord intervalRecords
      rw [hanchor, hcands]
      simp [latestByTimeCreated, sortPoints]
    unfold getIndexPrimitive getBaseValue
    simp only [Option.orElse_none, Option.orElse, hfirst]
    rw [if_neg hr0]
    rw [if_neg hmode]
    unfold getRecordPrimitive
    rw [if_neg hmode]
    simp only [hrows]
    simp
  · intro hnone
    unfold getRecordPrimitive
    rw [if_pos ⟨rfl, rfl⟩]
    have : (events.filter (fun e => decide (e.stream = sref2) &&
        decide (e.event_time < maxInt8) &&
        decide (e.created_at ≤ frozenT.getD maxInt8))) = [] := by
      rw [List.filter_eq_nil_iff]
      intro e he
      simp only [Bool.and_eq_true, decide_eq_true_eq]
      intro h
      exact absurd h.1.1 (hnone e he)
    unfold lastRecordPrimitive
    rw [this]
    simp [latestByTimeCreated]

/-- Witness for C10: a stream whose only event (value `7`) sits at
`t = 20`, queried over `[0, 10]`: `get_index` raises the record error;
and for an unknown stream reference the latest-record fetch yields `[]`. -/
theorem range_mode_error_latest_mode_empty_witness :
    getIndexPrimitive [⟨1, 20, 0, 7⟩] none 1 (some 0) (some 10) none none =
      .error "error when getting record" ∧
    getRecordPrimitive [⟨1, 20, 0, 7⟩] 2 none none none = .ok [] := by
  have H := range_mode_error_latest_mode_empty [⟨1, 20, 0, 7⟩] 1 2
    (some 0) (some 10) none ⟨1, 20, 7⟩ (by simp) (by simp [maxInt8])
    (by simp [firstRecordPrimitive, firstByTimeLatestCreated, maxInt8])
    (by norm_num) (by intro e he hs; simp at he; simp [he, maxInt8])
  exact ⟨H.1, H.2 (by intro e he; simp at he; simp [he])⟩

/-! ## The period-change calculator (`general.py`,
`GeneralStreamTool._calculate_index_changes`) -/

/-- One `(event_time, value)` record of an index series. -/
structure Entry where
  event_time : Int
  value : ℚ
deriving Repr, DecidableEq

/-- Comparison by `event_time`, the sort key used by
`sorted(data, key=lambda x: int(x["event_time"]))`. -/
def entryLE (a b : Entry) : Prop := a.event_time ≤ b.event_time

instance : DecidableRel entryLE := fun a b =>
  inferInstanceAs (Decidable (a.event_time ≤ b.event_time))

instance : IsTotal Entry entryLE := ⟨fun x y => Int.le_total x.event_time y.event_time⟩

instance : IsTrans Entry entryLE := ⟨fun _ _ _ => le_trans⟩

/-- Python's stable `sorted` by `event_time`, as a stable insertion sort. -/
def sortEntries (l : List Entry) : List Entry := l.insertionSort entryLE

/-- The inner `while` loop of `_calculate_index_changes`: advance the
pointer `j` while the next previous point still has
`event_time ≤ target_time`. -/
def advance (ps : List Entry) (target : Int) (j : Nat) : Nat :=
  if h : j + 1 < ps.length then
    if (ps.get ⟨j + 1, h⟩).event_time ≤ target then advance ps target (j + 1)
    else j
  else j
termination_by ps.length - j
decreasing_by omega

/-- The `for` loop of `_calculate_index_changes`: for each current record,
advance the pointer, and when the pointed-to previous record exists, has
`event_time ≤ target_time` and a nonzero value, emit
`(current - previous) * 100 / previous`. -/
def twoPointerLoop (ps : List Entry) (interval : Int) :
    Nat → List Entry → List Entry
  | _, [] => []
  | j, c :: cs =>
      let target := c.event_time - interval
      let j2 := advance ps target j
      if h : j2 < ps.length then
        if (ps.get ⟨j2, h⟩).event_time ≤ target then
          if (ps.get ⟨j2, h⟩).value ≠ 0 then
            ⟨c.event_time,
                (c.value - (ps.get ⟨j2, h⟩).value) * 100 / (ps.get ⟨j2, h⟩).value⟩ ::
              twoPointerLoop ps interval j2 cs
          else twoPointerLoop ps interval j2 cs
        else twoPointerLoop ps interval j2 cs
      else twoPointerLoop ps interval j2 cs

/-- `_calculate_index_changes`: sort both series by `event_time`, then run
the two-pointer scan starting at `j = 0`. -/
def calculateIndexChanges (current prev : List Entry) (interval : Int) :
    List Entry :=
  twoPointerLoop (sortEntries prev) interval 0 (sortEntries current)

/-- `get_index_change`: empty inputs short-circuit to an empty result. -/
def getIndexChange (current prev : List Entry) (interval : Int) :
    List Entry :=
  if current = [] then []
  else if prev = [] then []
  else calculateIndexChanges current prev interval

/-- Specification-level matching, following the spec sentence: "the
matched previous point is the last one satisfying `time ≤ t − interval`". -/
def lastPrevAtMost (ps : List Entry) (target : Int) : Option Entry :=
  (ps.filter (fun p => decide (p.event_time ≤ target))).getLast?

/-- Specification-level description of the period-change calculation: each
current point, in time order, is matched against the last previous point
with `time ≤ t − interval`; unmatched points and zero previous values
produce no output, otherwise `(current − previous) · 100 / previous`. -/
def indexChangesSpec (current prev : List Entry) (interval : Int) :
    List Entry :=
  (sortEntries current).filterMap (fun c =>
    match lastPrevAtMost (sortEntries prev) (c.event_time - interval) with
    | none => none
    | some p =>
        if p.value ≠ 0 then
          some ⟨c.event_time, (c.value - p.value) * 100 / p.value⟩
        else none)

lemma advance_spec (ps : List Entry) (target : Int) :
    ∀ (n j : Nat), ps.length - j ≤ n →
      (j ≤ advance ps target j ∧
        (j < ps.length → advance ps target j < ps.length)) ∧
      (advance ps target j ≠ j → ∃ h : advance ps target j < ps.length,
        (ps.get ⟨advance ps target j, h⟩).event_time ≤ target) ∧
      (∀ h2 : advance ps target j + 1 < ps.length,
        ¬((ps.get ⟨advance ps target j + 1, h2⟩).event_time ≤ target)) := by
  intro n
  induction n with
  | zero =>
      intro j hj
      have hlen : ps.length ≤ j := by omega
      have hnot : ¬(j + 1 < ps.length) := by omega
      rw [advance, dif_neg hnot]
      exact ⟨⟨le_refl j, fun hlt => hlt⟩, fun hne => absurd rfl hne,
        fun h2 => absurd h2 (by omega)⟩
  | succ n ih =>
      intro j hj
      by_cases hb : j + 1 < ps.length
      · by_cases hle : (ps.get ⟨j + 1, hb⟩).event_time ≤ target
        · have hstep : advance ps target j = advance ps target (j + 1) := by
            rw [advance, dif_pos hb, if_pos hle]
          have ihn := ih (j + 1) (by omega)
          rw [hstep]
          refine ⟨⟨le_trans (by omega) ihn.1.1, fun _ => ihn.1.2 hb⟩, ?_, ihn.2.2⟩
          intro _
          by_cases heq : advance ps target (j + 1) = j + 1
          · refine ⟨by rw [heq]; exact hb, ?_⟩
            simp only [heq]
            exact hle
          · exact ihn.2.1 heq
        · have hstop : advance ps target j = j := by
            rw [advance, dif_pos hb, if_neg hle]
          rw [hstop]
          exact ⟨⟨le_refl j, fun hlt => hlt⟩, fun hne => absurd rfl hne,
            fun h2 => by simpa using hle⟩
      · have hstop : advance ps target j = j := by
          rw [advance, dif_neg hb]
        rw [hstop]
        exact ⟨⟨le_refl j, fun hlt => hlt⟩, fun hne => absurd rfl hne,
          fun h2 => absurd h2 hb⟩

lemma sorted_filter_eq_takeWhile (target : Int) :
    ∀ (ps : List Entry), List.Sorted entryLE ps →
      ps.filter (fun p => decide (p.event_time ≤ target)) =
        ps.takeWhile (fun p => decide (p.event_time ≤ target)) := by
  intro ps
  induction ps with
  | nil => intro _; rfl
  | cons x l ih =>
      intro hs
      rcases List.sorted_cons.mp hs with ⟨hx, hl⟩
      by_cases hle : x.event_time ≤ target
      · simp only [List.filter_cons, List.takeWhile_cons, hle, decide_True,
          if_true, ih hl]
      · simp only [List.filter_cons, List.takeWhile_cons, hle, decide_False,
          if_false, Bool.false_eq_true]
        rw [List.filter_eq_nil_iff]
        intro b hb
        simp only [decide_eq_true_eq]
        intro hble
        exact hle (le_trans (hx b hb) hble)

lemma sorted_le_iff_lt_cnt (target : Int) :
    ∀ (ps : List Entry), List.Sorted entryLE ps →
      ∀ (i : Nat) (hi : i < ps.length),
        ((ps.get ⟨i, hi⟩).event_time ≤ target ↔
          i < (ps.takeWhile (fun p => decide (p.event_time ≤ target))).length) := by
  intro ps
  induction ps with
  | nil => intro _ i hi; simp at hi
  | cons x l ih =>
      intro hs i hi
      rcases List.sorted_cons.mp hs with ⟨hx, hl⟩
      by_cases hle : x.event_time ≤ target
      · cases i with
        | zero => simp [List.takeWhile_cons, hle]
        | succ k =>
            simp only [List.get_cons_succ, List.takeWhile_cons, hle,
              decide_True, if_true, List.length_cons, Nat.succ_lt_succ_iff]
            exact ih hl k (by simpa using Nat.lt_of_succ_lt_succ hi)
      · cases i with
        | zero => simp [List.takeWhile_cons, hle]
        | succ k =>
            have hk : k < l.length := by simpa using Nat.lt_of_succ_lt_succ hi
            simp only [List.get_cons_succ, List.takeWhile_cons, hle,
              decide_False, if_false, List.length_nil, Bool.false_eq_true]
            constructor
            · intro hcon
              exact absurd (le_trans (hx _ (l.get_mem k hk)) hcon) hle
            · intro hcon
              exact absurd hcon (by omega)

lemma takeWhile_getElem? (p : Entry → Bool) :
    ∀ (l : List Entry) (i : Nat), i < (l.takeWhile p).length →
      (l.takeWhile p)[i]? = l[i]? := by
  intro l
  induction l with
  | nil => intro i h; simp at h
  | cons x l ih =>
      intro i h
      by_cases hp : p x
      · cases i with
        | zero => simp [List.takeWhile_cons, hp]
        | succ k =>
            simp only [List.takeWhile_cons, hp, if_true] at h ⊢
            simp only [List.getElem?_cons_succ]
            exact ih k (by simpa using Nat.lt_of_succ_lt_succ h)
      · simp [List.takeWhile_cons, hp] at h

lemma lastPrevAtMost_eq_getLast_takeWhile (ps : List Entry) (target : Int)
    (hs : List.Sorted entryLE ps) :
    lastPrevAtMost ps target =
      (ps.takeWhile (fun p => decide (p.event_time ≤ target))).getLast? := by
  unfold lastPrevAtMost
  rw [sorted_filter_eq_takeWhile target ps hs]

/-- After `advance`, the pointed-to previous element (when it exists and
satisfies the cutoff) is exactly the specification-level match: the last
previous element with `event_time ≤ target`. -/
lemma advance_matched (ps : List Entry) (target : Int) (j : Nat)
    (hs : List.Sorted entryLE ps)
    (hj : j = 0 ∨ ∃ h : j < ps.length, (ps.get ⟨j, h⟩).event_time ≤ target) :
    (∃ h : advance ps target j < ps.length,
        (ps.get ⟨advance ps target j, h⟩).event_time ≤ target ∧
        lastPrevAtMost ps target = some (ps.get ⟨advance ps target j, h⟩)) ∨
    ((∀ h : advance ps target j < ps.length,
        ¬((ps.get ⟨advance ps target j, h⟩).event_time ≤ target)) ∧
      lastPrevAtMost ps target = none) := by
  have hadv := advance_spec ps target ps.length j (by omega)
  have hlp := lastPrevAtMost_eq_getLast_takeWhile ps target hs
  cases hcnt : (ps.takeWhile (fun p => decide (p.event_time ≤ target))).length with
  | zero =>
      right
      constructor
      · intro h hcon
        have := (sorted_le_iff_lt_cnt target ps hs _ h).mp hcon
        omega
      · rw [hlp, List.length_eq_zero.mp hcnt]
        rfl
  | succ k =>
      left
      have htwlen : (ps.takeWhile (fun p => decide (p.event_time ≤ target))).length ≤
          ps.length := (List.takeWhile_prefix _).length_le
      have hklen : k < ps.length := by omega
      have hle_a : ∃ h : advance ps target j < ps.length,
          (ps.get ⟨advance ps target j, h⟩).event_time ≤ target := by
        by_cases hne : advance ps target j = j
        · rcases hj with rfl | ⟨hjl, hjle⟩
          · have h0 : (0 : Nat) < ps.length := by omega
            rw [hne]
            exact ⟨h0, (sorted_le_iff_lt_cnt target ps hs 0 h0).mpr (by omega)⟩
          · refine ⟨by rw [hne]; exact hjl, ?_⟩
            simp only [hne]
            exact hjle
        · exact hadv.2.1 hne
      obtain ⟨hal, hale_t⟩ := hle_a
      have halt := (sorted_le_iff_lt_cnt target ps hs _ hal).mp hale_t
      have hage : k ≤ advance ps target j := by
        by_contra hlt
        push_neg at hlt
        have ha1 : advance ps target j + 1 < ps.length := by omega
        exact hadv.2.2 ha1
          ((sorted_le_iff_lt_cnt target ps hs _ ha1).mpr (by omega))
      have hak : advance ps target j = k := by omega
      refine ⟨hal, hale_t, ?_⟩
      rw [hlp, List.getLast?_eq_getElem? _, hcnt]
      simp only [Nat.succ_sub_one]
      rw [takeWhile_getElem? _ ps k (by omega)]
      rw [List.getElem?_eq_getElem hklen]
      simp only [hak]
      simp

lemma twoPointerLoop_cons (ps : List Entry) (interval : Int) (j : Nat)
    (c : Entry) (cs : List Entry) :
    twoPointerLoop ps interval j (c :: cs) =
      (if h : advance ps (c.event_time - interval) j < ps.length then
        if (ps.get ⟨advance ps (c.event_time - interval) j, h⟩).event_time ≤
            c.event_time - interval then
          if (ps.get ⟨advance ps (c.event_time - interval) j, h⟩).value ≠ 0 then
            [⟨c.event_time,
              (c.value - (ps.get ⟨advance ps (c.event_time - interval) j, h⟩).value) *
                100 / (ps.get ⟨advance ps (c.event_time - interval) j, h⟩).value⟩]
          else []
        else []
      else []) ++
        twoPointerLoop ps interval (advance ps (c.event_time - interval) j) cs := by
  simp only [twoPointerLoop]
  split
  · split
    · split
      · simp
      · simp
    · simp
  · simp

/-- The pointed two-pointer fold equals the specification-level matching,
given sorted inputs and the pointer invariant. -/
lemma twoPointerLoop_eq_spec (ps : List Entry) (interval : Int)
    (hs : List.Sorted entryLE ps) :
    ∀ (cs : List Entry), List.Sorted entryLE cs → ∀ (j : Nat),
      (j = 0 ∨ ∀ c, cs.head? = some c →
        ∃ h : j < ps.length,
          (ps.get ⟨j, h⟩).event_time ≤ c.event_time - interval) →
      twoPointerLoop ps interval j cs = cs.filterMap (fun c =>
        match lastPrevAtMost ps (c.event_time - interval) with
        | none => none
        | some p =>
            if p.value ≠ 0 then
              some ⟨c.event_time, (c.value - p.value) * 100 / p.value⟩
            else none) := by
  intro cs
  induction cs with
  | nil => intro _ j _; rfl
  | cons c cs2 ih =>
      intro hcs j hj
      rcases List.sorted_cons.mp hcs with ⟨hc, hcs2⟩
      have hjt : j = 0 ∨ ∃ h : j < ps.length,
          (ps.get ⟨j, h⟩).event_time ≤ c.event_time - interval := by
        rcases hj with rfl | hj2
        · exact Or.inl rfl
        · exact Or.inr (hj2 c rfl)
      have hm := advance_matched ps (c.event_time - interval) j hs hjt
      have hadv := advance_spec ps (c.event_time - interval) ps.length j (by omega)
      have hnext : advance ps (c.event_time - interval) j = 0 ∨
          ∀ c2, cs2.head? = some c2 →
            ∃ h : advance ps (c.event_time - interval) j < ps.length,
              (ps.get ⟨advance ps (c.event_time - interval) j, h⟩).event_time ≤
                c2.event_time - interval := by
        by_cases hne : advance ps (c.event_time - interval) j = j
        · rcases hj with rfl | hj2
          · exact Or.inl hne
          · right
            intro c2 hc2
            obtain ⟨h, hle⟩ := hj2 c rfl
            have hcc : c.event_time ≤ c2.event_time :=
              hc c2 (List.mem_of_mem_head? hc2)
            refine ⟨by rw [hne]; exact h, ?_⟩
            simp only [hne]
            omega
        · right
          intro c2 hc2
          obtain ⟨h, hle⟩ := hadv.2.1 hne
          have hcc : c.event_time ≤ c2.event_time :=
            hc c2 (List.mem_of_mem_head? hc2)
          exact ⟨h, by omega⟩
      rw [twoPointerLoop_cons, List.filterMap_cons]
      rcases hm with ⟨hlt, hle, hsome⟩ | ⟨hnomatch, hnone⟩
      · rw [hsome, dif_pos hlt, if_pos hle]
        dsimp only
        by_cases hv : (ps.get ⟨advance ps (c.event_time - interval) j, hlt⟩).value ≠ 0
        · rw [if_pos hv, if_pos hv]
          dsimp only
          rw [ih hcs2 _ hnext]
          simp
        · rw [if_neg hv, if_neg hv]
          dsimp only
          rw [ih hcs2 _ hnext]
          simp
      · rw [hnone]
        dsimp only
        by_cases hlt : advance ps (c.event_time - interval) j < ps.length
        · rw [dif_pos hlt, if_neg (hnomatch hlt)]
          rw [ih hcs2 _ hnext]
          simp
        · rw [dif_neg hlt]
          rw [ih hcs2 _ hnext]
          simp

lemma calculateIndexChanges_eq_spec (current prev : List Entry)
    (interval : Int) :
    calculateIndexChanges current prev interval =
      indexChangesSpec current prev interval := by
  unfold calculateIndexChanges indexChangesSpec
  exact twoPointerLoop_eq_spec (sortEntries prev) interval
    (List.sorted_insertionSort entryLE prev) (sortEntries current)
    (List.sorted_insertionSort entryLE current) 0 (Or.inl rfl)

/-- **C7.** The two-pointer period-change calculation computes exactly the
specification-level matching: each current point at time `t` (in time
order) is matched to the last previous point with `time ≤ t - interval`;
when no such point exists, or its value is `0`, the point is skipped, and
otherwise `(current - previous) * 100 / previous` is emitted. -/
theorem calculate_index_changes_two_pointer_correct
    (current prev : List Entry) (interval : Int) :
    calculateIndexChanges current prev interval =
      indexChangesSpec current prev interval :=
  calculateIndexChanges_eq_spec current prev interval

lemma filterMap_times_sublist (f : Entry → Option Entry)
    (hf : ∀ c r, f c = some r → r.event_time = c.event_time) :
    ∀ (l : List Entry),
      ((l.filterMap f).map (·.event_time)).Sublist (l.map (·.event_time)) := by
  intro l
  induction l with
  | nil => simp
  | cons c l ih =>
      simp only [List.filterMap_cons, List.map_cons]
      cases hfc : f c with
      | none => exact ih.cons _
      | some r =>
          simp only [List.map_cons, hf c r hfc]
          exact ih.cons₂ _

/-- **C8.** The period-change output is monotonically non-decreasing in
`event_time`, and every emitted entry corresponds to a current point whose
shifted time `t - interval` does not precede the earliest time in the
previous series: some previous point with `event_time ≤ t - interval`
exists. -/
theorem index_change_monotone_and_shift_bounded (current prev : List Entry)
    (interval : Int) :
    ((getIndexChange current prev interval).map (·.event_time)).Pairwise
      (· ≤ ·) ∧
    (∀ r ∈ getIndexChange current prev interval,
      ∃ p ∈ prev, p.event_time ≤ r.event_time - interval) := by
  unfold getIndexChange
  by_cases h1 : current = []
  · rw [if_pos h1]; simp
  rw [if_neg h1]
  by_cases h2 : prev = []
  · rw [if_pos h2]; simp
  rw [if_neg h2]
  rw [calculateIndexChanges_eq_spec]
  unfold indexChangesSpec
  constructor
  · refine List.Pairwise.sublist (filterMap_times_sublist _ ?_ _) ?_
    · intro c r hcr
      cases hm : lastPrevAtMost (sortEntries prev) (c.event_time - interval) with
      | none => rw [hm] at hcr; cases hcr
      | some p =>
          rw [hm] at hcr
          dsimp only at hcr
          by_cases hv : p.value ≠ 0
          · rw [if_pos hv] at hcr
            cases hcr
            rfl
          · rw [if_neg hv] at hcr
            cases hcr
    · have hsorted := List.sorted_insertionSort entryLE current
      exact List.Pairwise.map _ (fun a b hab => hab) hsorted
  · intro r hr
    rcases List.mem_filterMap.mp hr with ⟨c, _, hfc⟩
    cases hm : lastPrevAtMost (sortEntries prev) (c.event_time - interval) with
    | none => rw [hm] at hfc; cases hfc
    | some p =>
        rw [hm] at hfc
        dsimp only at hfc
        by_cases hv : p.value ≠ 0
        · rw [if_pos hv] at hfc
          cases hfc
          have hpmem : p ∈ (sortEntries prev).filter
              (fun q => decide (q.event_time ≤ c.event_time - interval)) := by
            unfold lastPrevAtMost at hm
            exact List.mem_of_getLast?_eq_some hm
          rcases List.mem_filter.mp hpmem with ⟨hpin, hple⟩
          refine ⟨p, ?_, ?_⟩
          · exact ((List.perm_insertionSort entryLE prev).mem_iff).mp hpin
          · simpa using hple
        · rw [if_neg hv] at hfc
          cases hfc

/-- Witness for C8: `current = [(10, 5)]`, `prev = [(0, 4)]`,
`interval = 8` yields `[(10, 25)]`, and the output entry's shifted time
`2` is at or after the previous point at `t = 0`. -/
theorem index_change_monotone_and_shift_bounded_witness :
    getIndexChange [⟨10, 5⟩] [⟨0, 4⟩] 8 = [⟨10, 25⟩] ∧
    (∃ p ∈ [(⟨0, 4⟩ : Entry)],
      p.event_time ≤ (⟨10, 25⟩ : Entry).event_time - 8) := by
  have hout : getIndexChange [⟨10, 5⟩] [⟨0, 4⟩] 8 = [⟨10, 25⟩] := by
    simp [getIndexChange, calculateIndexChanges, sortEntries,
      List.insertionSort, twoPointerLoop, advance]
    norm_num
  refine ⟨hout, ?_⟩
  exact (index_change_monotone_and_shift_bounded [⟨10, 5⟩] [⟨0, 4⟩] 8).2
    ⟨10, 25⟩ (by rw [hout]; simp)

end Truf
